import Mathlib

/-!
Verification of the thematic-analysis batching/reduction engine
(src/categorymaker.py and src/thematic-batches.py).

The Python code is shallowly embedded: strings are modelled as `String` /
`List Char`, pandas NaN-able cells as `Option String`, the remote
text-completion service as a function parameter, `time.sleep` as a recorded
list of sleep durations, and a raised `IndexError` as `Option.none`.
-/

/-- The single-quote character (ASCII 39), used pervasively by the cleaning
regex of categorymaker.py. -/
def apos : Char := Char.ofNat 39

/-- Python regex `\s` over ASCII text: the whitespace characters recognised by
`re.sub` patterns and by `str.strip` in categorymaker.py. -/
def isPySpace (c : Char) : Bool :=
  c = ' ' || c = '\t' || c = '\n' || c = '\r' || c = '\x0B' || c = '\x0C'

/-- Python `str.strip()` on a character list: drop leading and trailing
whitespace. -/
def pyStrip (cs : List Char) : List Char :=
  ((cs.dropWhile isPySpace).reverse.dropWhile isPySpace).reverse

/-- Python `str.strip()` on a `String`. -/
def pyStripStr (s : String) : String :=
  (pyStrip s.toList).asString

/-- Does the first list occur at the head of the second?  (Plain structural
test used by the ContentBlock-pattern matcher.) -/
def begins : List Char → List Char → Bool
  | [], _ => true
  | _ :: _, [] => false
  | p :: ps, c :: cs => p = c && begins ps cs

/-- Python `text.split(sep)` for a one-character separator `sep`:
splits on every occurrence, keeping empty fields (`"".split(sep) == [""]`). -/
def pySplitChar (sep : Char) : List Char → List (List Char)
  | [] => [[]]
  | c :: cs =>
    if c = sep then [] :: pySplitChar sep cs
    else
      match pySplitChar sep cs with
      | [] => [[c]]
      | g :: gs => (c :: g) :: gs

/-- Python `analysis.split(";")` from thematic-batches.py line 181. -/
def pySplitSemi (s : String) : List String :=
  (pySplitChar ';' s.toList).map List.asString

/-- Python `analysis.split("---")` from categorymaker.py line 143:
non-overlapping, leftmost-first occurrences of the three-dash separator. -/
def splitDashes : List Char → List (List Char)
  | [] => [[]]
  | '-' :: '-' :: '-' :: rest => [] :: splitDashes rest
  | c :: rest =>
    match splitDashes rest with
    | [] => [[c]]
    | g :: gs => (c :: g) :: gs

/-- Python `s.split(":", 1)[-1]` from categorymaker.py lines 149-150: if the
text contains a colon, everything up to and including the first colon is
discarded; otherwise the text is returned unchanged. -/
def splitOnceColon (cs : List Char) : List Char :=
  if ':' ∈ cs then (cs.dropWhile (fun c => c ≠ ':')).tail else cs

/-- `splitOnceColon` lifted to `String`. -/
def splitOnceColonStr (s : String) : String :=
  (splitOnceColon s.toList).asString

/-- Python `text.replace("\\n", "\n")` (categorymaker.py line 67): each
two-character backslash-n sequence becomes a newline, scanning left to
right without overlap. -/
def replaceEscNL : List Char → List Char
  | '\\' :: 'n' :: rest => '\n' :: replaceEscNL rest
  | c :: rest => c :: replaceEscNL rest
  | [] => []

/-- One pass of Python `re.sub(r"\s+", " ", text)` (categorymaker.py
line 71): `wasWS` records whether the previous character belonged to a
whitespace run that has already emitted its single space. -/
def collapseGo : Bool → List Char → List Char
  | _, [] => []
  | wasWS, c :: cs =>
    if isPySpace c then
      if wasWS then collapseGo true cs else ' ' :: collapseGo true cs
    else c :: collapseGo false cs

/-- Python `re.sub(r"\s+", " ", text)`: every maximal whitespace run becomes
a single space. -/
def collapseWS (cs : List Char) : List Char :=
  collapseGo false cs

/-- First alternative of the ContentBlock regex with the optional bracket:
the literal text of `\[?ContentBlock\(text=\'` when the bracket is taken. -/
def cbPatA1 : List Char := "[ContentBlock(text=".toList ++ [apos]

/-- First alternative of the ContentBlock regex without the bracket. -/
def cbPatA2 : List Char := "ContentBlock(text=".toList ++ [apos]

/-- Second alternative with the optional `, type='text'` group and the
optional closing bracket both taken. -/
def cbPatB1 : List Char :=
  [apos, ','] ++ " type=".toList ++ [apos] ++ "text".toList ++ [apos] ++ ")]".toList

/-- Second alternative with the optional group taken but no closing bracket. -/
def cbPatB2 : List Char :=
  [apos, ','] ++ " type=".toList ++ [apos] ++ "text".toList ++ [apos] ++ [')']

/-- Second alternative with neither optional piece. -/
def cbPatB3 : List Char := [apos, ')', ']']

/-- Second alternative with no optional piece and no bracket. -/
def cbPatB4 : List Char := [apos, ')']

/-- Length of the regex match of
`\[?ContentBlock\(text=\'|\'(?:, type=\'text\')?\)\]?` at the head of `cs`,
if any.  Alternatives are tried in Python regex order (left alternative
first, greedy optional pieces first). -/
def cbMatchLen (cs : List Char) : Option Nat :=
  if begins cbPatA1 cs then some cbPatA1.length
  else if begins cbPatA2 cs then some cbPatA2.length
  else if begins cbPatB1 cs then some cbPatB1.length
  else if begins cbPatB2 cs then some cbPatB2.length
  else if begins cbPatB3 cs then some cbPatB3.length
  else if begins cbPatB4 cs then some cbPatB4.length
  else none

/-- Fuelled scan of `re.sub(pattern, "", text)` for the ContentBlock pattern
(categorymaker.py line 65): delete each leftmost non-overlapping match.
The fuel is only a termination device; `stripCB` supplies enough fuel for
the scan to finish. -/
def stripCBF : Nat → List Char → List Char
  | 0, cs => cs
  | _ + 1, [] => []
  | fuel + 1, c :: cs =>
    match cbMatchLen (c :: cs) with
    | some L => stripCBF fuel (List.drop L (c :: cs))
    | none => c :: stripCBF fuel cs

/-- `re.sub` of the ContentBlock pattern with the empty replacement. -/
def stripCB (cs : List Char) : List Char :=
  stripCBF cs.length cs

/-- categorymaker.py `clean_text` (lines 51-75): remove ContentBlock
formatting, turn escaped newlines into real ones, drop remaining
backslashes, collapse whitespace runs to single spaces, drop double and
single quotes, and strip the ends.  (The non-string guard of line 61 is
outside the typed embedding.) -/
def clean_text (s : String) : String :=
  let cs := stripCB s.toList
  let cs := replaceEscNL cs
  let cs := cs.filter (fun c => c ≠ '\\')
  let cs := collapseWS cs
  let cs := cs.filter (fun c => c ≠ '"')
  let cs := cs.filter (fun c => c ≠ apos)
  (pyStrip cs).asString

/-- thematic-batches.py lines 56 and 71:
`[cat.strip() for cat in row[column_name].split(";") if cat.strip()]`. -/
def parse_categories (s : String) : List String :=
  ((pySplitSemi s).map pyStripStr).filter (fun c => c ≠ "")

/-- The character-level pipeline of `clean_text` (same steps, same order). -/
def cleanChars (cs : List Char) : List Char :=
  pyStrip ((((collapseWS
    ((replaceEscNL (stripCB cs)).filter (fun c => c ≠ '\\'))).filter
      (fun c => c ≠ '"')).filter (fun c => c ≠ apos)))

/-- `s.toList` has no single or double quote character (hypothesis under
which `clean_text` is idempotent). -/
def noQuotes (s : String) : Bool :=
  s.toList.all (fun c => c ≠ '"' && c ≠ apos)

/-! ## CategoryCollector: thematic-batches.py `collect_categories` -/

/-- Loop of `collect_categories` with `batch_by == "rows"` (thematic-batches.py
lines 51-64 plus the trailing emission of lines 82-83).  A `none` row models a
NaN cell (`pd.notna` false).  State: already-closed `batches`, the
`current_batch`, and `current_count` (rows placed in the current batch). -/
def collectRowsAux (maxBatchSize : Nat) :
    List (Option String) → List (List String) → List String → Nat → List (List String)
  | [], batches, cur, _ => if cur = [] then batches else batches ++ [cur]
  | none :: rs, batches, cur, cnt => collectRowsAux maxBatchSize rs batches cur cnt
  | some s :: rs, batches, cur, cnt =>
    let cats := parse_categories s
    if maxBatchSize ≤ cnt then
      collectRowsAux maxBatchSize rs (batches ++ [cur]) cats 1
    else
      collectRowsAux maxBatchSize rs batches (cur ++ cats) (cnt + 1)

/-- Loop of `collect_categories` with `batch_by == "categories"`
(thematic-batches.py lines 66-79 plus the trailing emission).  Here
`current_count` counts categories in the current batch. -/
def collectCatsAux (maxBatchSize : Nat) :
    List (Option String) → List (List String) → List String → Nat → List (List String)
  | [], batches, cur, _ => if cur = [] then batches else batches ++ [cur]
  | none :: rs, batches, cur, cnt => collectCatsAux maxBatchSize rs batches cur cnt
  | some s :: rs, batches, cur, cnt =>
    let cats := parse_categories s
    if maxBatchSize < cnt + cats.length then
      collectCatsAux maxBatchSize rs (batches ++ [cur]) cats cats.length
    else
      collectCatsAux maxBatchSize rs batches (cur ++ cats) (cnt + cats.length)

/-- thematic-batches.py `collect_categories` (lines 36-96, console output
elided): the column is the list of cells, `none` for NaN. -/
def collect_categories (batch_by : String) (maxBatchSize : Nat)
    (rows : List (Option String)) : List (List String) :=
  if batch_by = "rows" then collectRowsAux maxBatchSize rows [] [] 0
  else collectCatsAux maxBatchSize rows [] [] 0

/-! ## BatchReducer: thematic-batches.py `iterative_aggregation` -/

/-- One pass of the merge loop of `iterative_aggregation` (thematic-batches.py
lines 177-183): pairs are merged by concatenating and splitting the service
response on `;` verbatim; a trailing unpaired batch is appended unchanged.
`analyze` models `get_analysis_from_claude(..., is_aggregation=False)`. -/
def aggRound (analyze : List String → String) :
    List (List String) → List (List String)
  | [] => []
  | [b] => [b]
  | b1 :: b2 :: rest => pySplitSemi (analyze (b1 ++ b2)) :: aggRound analyze rest

/-- The `while len(categories) > 1` loop of `iterative_aggregation`
(lines 173-189, intermediate-file writing elided): returns the final batch
list together with the number of iterations performed. -/
def aggLoop (analyze : List String → String) (categories : List (List String)) :
    List (List String) × Nat :=
  if h : 1 < categories.length then
    let r := aggLoop analyze (aggRound analyze categories)
    (r.1, r.2 + 1)
  else (categories, 0)
termination_by categories.length
decreasing_by
  have hlen : ∀ l : List (List String),
      (aggRound analyze l).length = (l.length + 1) / 2 := by
    intro l
    induction l using aggRound.induct analyze with
    | case1 => simp [aggRound]
    | case2 _ => simp [aggRound]
    | case3 b1 b2 rest ih =>
      simp only [aggRound, List.length_cons, ih]
      omega
  rw [hlen]
  omega

/-- thematic-batches.py `iterative_aggregation` (lines 163-202): run the merge
loop, then apply the terminal aggregation call to `categories[0]`.  Indexing
an empty list raises `IndexError` in Python, modelled as `none`.  `aggregate`
models `get_analysis_from_claude(..., is_aggregation=True)`. -/
def iterative_aggregation (analyze aggregate : List String → String)
    (batches : List (List String)) : Option String :=
  match (aggLoop analyze batches).1 with
  | [] => none
  | c :: _ => some (aggregate c)

/-! ## RowAnalyzer: categorymaker.py `process_row` and `extract_elements` -/

/-- The `has_data` flag of `process_row` (categorymaker.py lines 96-100): some
mapped column is present in the row with a non-NaN value. -/
def rowHasData (mapping : List (String × String))
    (row : List (String × Option String)) : Bool :=
  mapping.any (fun p =>
    match row.lookup p.1 with
    | some (some _) => true
    | _ => false)

/-- The prompt built by `process_row` (lines 93-99): the analysis context,
a blank line, then one `topic: value` line per mapped non-NaN field. -/
def buildPrompt (ctx : String) (mapping : List (String × String))
    (row : List (String × Option String)) : String :=
  mapping.foldl (fun acc p =>
    match row.lookup p.1 with
    | some (some v) => acc ++ p.2 ++ ": " ++ v ++ "\n"
    | _ => acc) (ctx ++ "\n\n")

/-- The retry loop of `process_row` (lines 110-131).  `resp k` models the
outcome of the service call on attempt `k`: `Except.error ()` is a raised
exception, `Except.ok none` a response with empty content, `Except.ok
(some t)` a response whose first content block has text `t`.  The result
records the returned string, the list of `time.sleep` durations, and the
number of service calls made.  Called with attempt index 0 and the remaining
budget `max_retries = 3`. -/
def processAttempts (resp : Nat → Except Unit (Option String)) :
    Nat → Nat → String × List Nat × Nat
  | _, 0 => ("", [], 0)
  | attempt, rem + 1 =>
    match resp attempt with
    | .ok (some text) => (clean_text text, [], 1)
    | .ok none => ("No content in response", [], 1)
    | .error _ =>
      if rem = 0 then ("Processing error", [], 1)
      else
        let r := processAttempts resp (attempt + 1) rem
        (r.1, 2 ^ attempt :: r.2.1, r.2.2 + 1)

/-- categorymaker.py `process_row` (lines 77-131): returns the result string,
the sleep durations, and the number of service calls. -/
def process_row (ctx : String) (mapping : List (String × String))
    (row : List (String × Option String))
    (resp : String → Nat → Except Unit (Option String)) :
    String × List Nat × Nat :=
  let prompt := buildPrompt ctx mapping row
  if rowHasData mapping row then processAttempts (resp prompt) 0 3
  else ("No input data", [], 0)

/-- categorymaker.py `extract_elements` (lines 133-155, the configured column
names of the returned Series elided): split on `---`, take the first two
fields (empty when absent), strip, drop through the first colon, strip. -/
def extract_elements (analysis : String) : String × String :=
  let parts := (splitDashes analysis.toList).map List.asString
  let primary :=
    match parts with
    | p :: _ => pyStripStr p
    | [] => ""
  let secondary :=
    match parts with
    | _ :: q :: _ => pyStripStr q
    | _ => ""
  (pyStripStr (splitOnceColonStr primary), pyStripStr (splitOnceColonStr secondary))

/-! ## Specification-side definitions (from the words of the spec, for
refinement statements) -/

/-- Text before the first `---` separator. -/
def takeUntilDashes : List Char → List Char
  | [] => []
  | '-' :: '-' :: '-' :: _ => []
  | c :: rest => c :: takeUntilDashes rest

/-- Text after the first `---` separator, `none` when there is none. -/
def afterDashes : List Char → Option (List Char)
  | [] => none
  | '-' :: '-' :: '-' :: rest => some rest
  | _ :: rest => afterDashes rest

/-- Modelled from the spec (section 4.2 step 4, amended): `primary` is the
text before the first `---` separator; `secondary` is the text between the
first and second separators (empty when no separator occurs); each part
drops everything up to and including its first colon and is trimmed. -/
def specExtract (analysis : String) : String × String :=
  let cs := analysis.toList
  let primaryPart := takeUntilDashes cs
  let secondaryPart :=
    match afterDashes cs with
    | none => []
    | some r => takeUntilDashes r
  ((pyStrip (splitOnceColon primaryPart)).asString,
   (pyStrip (splitOnceColon secondaryPart)).asString)

/-- Chunks of `n` consecutive elements; the last chunk may be shorter.  Used
to state row-boundary alignment of the `"rows"` batching policy. -/
def chunksOf (n : Nat) (l : List α) : List (List α) :=
  match l with
  | [] => []
  | x :: xs =>
    if n = 0 then [x :: xs]
    else List.take n (x :: xs) :: chunksOf n (List.drop n (x :: xs))
termination_by l.length
decreasing_by
  simp only [List.length_drop, List.length_cons]
  omega

/-- Drop the last group when it is empty (the source only emits the trailing
batch when `current_batch` is non-empty). -/
def dropTrailingEmpty : List (List String) → List (List String)
  | [] => []
  | [g] => if g = [] then [] else [g]
  | g :: g2 :: gs => g :: dropTrailingEmpty (g2 :: gs)

/-- Chunking that starts with `prev` elements already placed in the current
chunk, closing a chunk exactly when the next element arrives while the chunk
already holds at least `n` elements (mirrors the close-before-add shape of
the `"rows"` loop). -/
def chunksFrom (n : Nat) (prev : List α) : List α → List (List α)
  | [] => [prev]
  | r :: rs =>
    if n ≤ prev.length then prev :: chunksFrom n [r] rs
    else chunksFrom n (prev ++ [r]) rs

/-- An attempt outcome that models a raised exception. -/
def isFail : Except Unit (Option String) → Bool
  | .error _ => true
  | _ => false

/-- The groups after the first one in a `---`-split: empty when the text has
no separator, otherwise the split of the text after the first separator. -/
def dashTail (cs : List Char) : List (List Char) :=
  match afterDashes cs with
  | none => []
  | some r => splitDashes r

/-- Every whitespace character of the list is a plain space. -/
def wsSingle (l : List Char) : Prop :=
  ∀ c ∈ l, isPySpace c = true → c = ' '

/-- No two adjacent spaces. -/
def noDbl (l : List Char) : Prop :=
  List.Chain' (fun a b => a = ' ' → b ≠ ' ') l

/-! ## Lemmas about the merge loop -/

/-- A merge pass maps `n` batches to `⌈n/2⌉` batches. -/
theorem length_aggRound (analyze : List String → String) :
    (l : List (List String)) → (aggRound analyze l).length = (l.length + 1) / 2
  | [] => by simp [aggRound]
  | [b] => by simp [aggRound]
  | b1 :: b2 :: rest => by
    have ih := length_aggRound analyze rest
    simp only [aggRound, List.length_cons, ih]
    omega

/-- Unfolding of the merge loop when it terminates. -/
theorem aggLoop_of_le (analyze : List String → String) (cats : List (List String))
    (h : ¬ 1 < cats.length) : aggLoop analyze cats = (cats, 0) := by
  rw [aggLoop]
  simp [h]

/-- Unfolding of the merge loop when it performs a round. -/
theorem aggLoop_of_lt (analyze : List String → String) (cats : List (List String))
    (h : 1 < cats.length) :
    aggLoop analyze cats =
      ((aggLoop analyze (aggRound analyze cats)).1,
       (aggLoop analyze (aggRound analyze cats)).2 + 1) := by
  rw [aggLoop]
  simp [h]

/-- Starting from `2 ^ (k + 1)` batches the loop performs `k + 1` rounds. -/
theorem aggLoop_rounds_pow (analyze : List String → String) :
    ∀ (k : Nat) (cats : List (List String)),
      cats.length = 2 ^ (k + 1) → (aggLoop analyze cats).2 = k + 1
  | 0, cats, h => by
    have h2 : 1 < cats.length := by rw [h]; norm_num
    have hl : (aggRound analyze cats).length = 1 := by
      rw [length_aggRound, h]
      norm_num
    rw [aggLoop_of_lt _ _ h2, aggLoop_of_le analyze _ (by rw [hl]; omega)]
  | k + 1, cats, h => by
    have h2 : 1 < cats.length := by
      rw [h]
      exact Nat.one_lt_two_pow (by omega)
    have hlen : (aggRound analyze cats).length = 2 ^ (k + 1) := by
      rw [length_aggRound, h, pow_succ]
      omega
    rw [aggLoop_of_lt _ _ h2]
    simp [aggLoop_rounds_pow analyze k (aggRound analyze cats) hlen]

/-- On an odd-length batch list a merge pass leaves the last batch unchanged. -/
theorem aggRound_getLast_odd (analyze : List String → String) :
    ∀ (l : List (List String)), l.length % 2 = 1 →
      (aggRound analyze l).getLast? = l.getLast?
  | [], h => by simp at h
  | [b], _ => by simp [aggRound]
  | b1 :: b2 :: rest, h => by
    have hr : rest.length % 2 = 1 := by
      simp only [List.length_cons] at h
      omega
    have ih := aggRound_getLast_odd analyze rest hr
    have hne : rest ≠ [] := by
      intro hnil
      rw [hnil] at hr
      simp at hr
    have hag : aggRound analyze rest ≠ [] := by
      intro hnil
      have hl := length_aggRound analyze rest
      rw [hnil] at hl
      simp only [List.length_nil] at hl
      have : rest.length = 0 := by omega
      exact hne (List.length_eq_zero.mp this)
    obtain ⟨r, rest', hrest⟩ := List.exists_cons_of_ne_nil hne
    subst hrest
    obtain ⟨y, ys, hys⟩ := List.exists_cons_of_ne_nil hag
    show (pySplitSemi (analyze (b1 ++ b2)) :: aggRound analyze (r :: rest')).getLast? =
      (b1 :: b2 :: r :: rest').getLast?
    rw [hys, List.getLast?_cons_cons, ← hys, ih, List.getLast?_cons_cons,
      List.getLast?_cons_cons]

/-- C1: for a starting list of `N = 2 ^ k` batches with `N ≥ 2`, the reduction
loop of `iterative_aggregation` performs exactly `k = ⌈log₂ N⌉` rounds before
one batch remains; on any odd-length batch list, the trailing unpaired batch
passes through a round unchanged (it stays the last batch, verbatim). -/
theorem aggLoop_pow2_rounds_and_odd_passthrough (analyze : List String → String)
    (cats cats2 : List (List String)) (k : Nat)
    (h1 : cats.length = 2 ^ k) (h2 : 2 ≤ cats.length)
    (h3 : cats2.length % 2 = 1) :
    (aggLoop analyze cats).2 = k ∧
    (aggRound analyze cats2).getLast? = cats2.getLast? := by
  refine ⟨?_, aggRound_getLast_odd analyze cats2 h3⟩
  match k with
  | 0 =>
    rw [h1] at h2
    norm_num at h2
  | k + 1 => exact aggLoop_rounds_pow analyze k cats h1

/-- C1 witness: four batches take two rounds; a singleton list is odd and its
last batch is preserved by a pass. -/
theorem aggLoop_pow2_rounds_witness :
    ([([] : List String), [], [], []].length = 2 ^ 2) ∧
    (2 ≤ [([] : List String), [], [], []].length) ∧
    ([[("a" : String)]].length % 2 = 1) ∧
    ((aggLoop (fun _ => "t") [([] : List String), [], [], []]).2 = 2 ∧
     (aggRound (fun _ => "t") [[("a" : String)]]).getLast? =
       [[("a" : String)]].getLast?) :=
  ⟨by decide, by decide, by decide,
    aggLoop_pow2_rounds_and_odd_passthrough (fun _ => "t") _ _ 2
      (by decide) (by decide) (by decide)⟩

/-- C3: on an empty batch list the merge loop is skipped and the terminal
step indexes `categories[0]` on an empty list, which raises `IndexError`
(modelled as `none`): no "no data" result is produced. -/
theorem iterative_aggregation_empty (analyze aggregate : List String → String) :
    iterative_aggregation analyze aggregate [] = none := by
  rw [iterative_aggregation, aggLoop]
  simp

/-- C2 counterexample: merging the pair `["x"], ["y"]` when the service
answers `"a; b;"` yields the batch `["a", " b", ""]` — the verbatim split —
which is not the trimmed, empty-free batch `["a", "b"]` the claim asserts. -/
theorem aggRound_merge_not_trimmed :
    aggRound (fun _ => "a; b;") [["x"], ["y"]] = [["a", " b", ""]] ∧
    ((pySplitSemi "a; b;").map pyStripStr).filter (fun c => c ≠ "") = ["a", "b"] ∧
    [["a", " b", ""]] ≠ [(["a", "b"] : List String)] :=
  ⟨by decide, by decide, by decide⟩

/-- C2 (amended): for every non-terminal merge of a full pair, the new batch
is the service response split on `;` verbatim — tokens are kept as returned,
neither trimmed nor filtered of empties. -/
theorem aggRound_pair_verbatim_split (analyze : List String → String) :
    ∀ (cats : List (List String)) (i : Nat) (b1 b2 : List String),
      cats[2 * i]? = some b1 → cats[2 * i + 1]? = some b2 →
      (aggRound analyze cats)[i]? = some (pySplitSemi (analyze (b1 ++ b2)))
  | [], i, b1, b2, h1, h2 => by simp at h1
  | [b], i, b1, b2, h1, h2 => by
    match i with
    | 0 => simp at h2
    | j + 1 =>
      rw [show 2 * (j + 1) + 1 = (2 * j + 2) + 1 by ring] at h2
      simp at h2
  | c1 :: c2 :: rest, i, b1, b2, h1, h2 => by
    match i with
    | 0 =>
      simp only [Nat.mul_zero, List.getElem?_cons_zero, Option.some.injEq] at h1
      simp only [Nat.mul_zero, Nat.zero_add, List.getElem?_cons_succ,
        List.getElem?_cons_zero, Option.some.injEq] at h2
      subst h1
      subst h2
      show (pySplitSemi (analyze (c1 ++ c2)) :: aggRound analyze rest)[0]? = _
      rw [List.getElem?_cons_zero]
    | j + 1 =>
      rw [show 2 * (j + 1) = ((2 * j) + 1) + 1 by ring, List.getElem?_cons_succ,
        List.getElem?_cons_succ] at h1
      rw [show 2 * (j + 1) + 1 = (((2 * j + 1) + 1) + 1) by ring,
        List.getElem?_cons_succ, List.getElem?_cons_succ] at h2
      have ih := aggRound_pair_verbatim_split analyze rest j b1 b2 h1 h2
      show (pySplitSemi (analyze (c1 ++ c2)) :: aggRound analyze rest)[j + 1]? = _
      rw [List.getElem?_cons_succ]
      exact ih

/-- C2 witness: the first pair of a two-batch list merges into the verbatim
split of the response. -/
theorem aggRound_pair_verbatim_split_witness :
    ([["x"], ["y"]] : List (List String))[2 * 0]? = some ["x"] ∧
    ([["x"], ["y"]] : List (List String))[2 * 0 + 1]? = some ["y"] ∧
    (aggRound (fun _ => "m; n") [["x"], ["y"]])[0]? =
      some (pySplitSemi ((fun (_ : List String) => "m; n") (["x"] ++ ["y"]))) :=
  ⟨by decide, by decide,
    aggRound_pair_verbatim_split (fun _ => "m; n") [["x"], ["y"]] 0 ["x"] ["y"]
      (by decide) (by decide)⟩

/-- C10: with `batch_by = "categories"` and `maxBatchSize = 1`, a single row
whose parsed category count exceeds the limit makes the overflow check fire
on the still-empty current batch, emitting an empty batch before the
over-sized row starts a new one. -/
theorem collect_categories_emits_empty_batch :
    collect_categories "categories" 1 [some "a;b"] = [[], ["a", "b"]] ∧
    [] ∈ collect_categories "categories" 1 [some "a;b"] :=
  ⟨by decide, by decide⟩

/-! ## C4: size bound of the "categories" batching policy -/

/-- Invariant of the `"categories"` loop: provided the running count equals
the current batch size, every batch the loop ever produces either respects
the limit or is the parsed categories of one single (over-sized) row. -/
theorem collectCatsAux_bound (maxBatchSize : Nat) (p : String → Prop) :
    ∀ (rs : List (Option String)) (batches : List (List String))
      (cur : List String) (cnt : Nat),
      cnt = cur.length →
      (∀ s, some s ∈ rs → p s) →
      (∀ b ∈ batches,
        b.length ≤ maxBatchSize ∨
          ∃ s, p s ∧ b = parse_categories s ∧ maxBatchSize < b.length) →
      (cur.length ≤ maxBatchSize ∨
        ∃ s, p s ∧ cur = parse_categories s ∧ maxBatchSize < cur.length) →
      ∀ b ∈ collectCatsAux maxBatchSize rs batches cur cnt,
        b.length ≤ maxBatchSize ∨
          ∃ s, p s ∧ b = parse_categories s ∧ maxBatchSize < b.length
  | [], batches, cur, cnt, hcnt, hp, hb, hcur => by
    intro b hmem
    simp only [collectCatsAux] at hmem
    by_cases hc : cur = []
    · rw [if_pos hc] at hmem
      exact hb b hmem
    · rw [if_neg hc] at hmem
      rcases List.mem_append.mp hmem with h | h
      · exact hb b h
      · rw [List.mem_singleton.mp h]
        exact hcur
  | none :: rs, batches, cur, cnt, hcnt, hp, hb, hcur => by
    exact collectCatsAux_bound maxBatchSize p rs batches cur cnt hcnt
      (fun s hs => hp s (List.mem_cons_of_mem _ hs)) hb hcur
  | some s :: rs, batches, cur, cnt, hcnt, hp, hb, hcur => by
    have hps : p s := hp s (List.mem_cons_self _ _)
    have hp' : ∀ t, some t ∈ rs → p t := fun t ht => hp t (List.mem_cons_of_mem _ ht)
    show ∀ b ∈ (if maxBatchSize < cnt + (parse_categories s).length then
        collectCatsAux maxBatchSize rs (batches ++ [cur]) (parse_categories s)
          (parse_categories s).length
      else
        collectCatsAux maxBatchSize rs batches (cur ++ parse_categories s)
          (cnt + (parse_categories s).length)), _
    by_cases hover : maxBatchSize < cnt + (parse_categories s).length
    · rw [if_pos hover]
      refine collectCatsAux_bound maxBatchSize p rs (batches ++ [cur])
        (parse_categories s) (parse_categories s).length rfl hp' ?_ ?_
      · intro b hmem
        rcases List.mem_append.mp hmem with h | h
        · exact hb b h
        · rw [List.mem_singleton.mp h]
          exact hcur
      · by_cases hlen : (parse_categories s).length ≤ maxBatchSize
        · exact Or.inl hlen
        · exact Or.inr ⟨s, hps, rfl, by omega⟩
    · rw [if_neg hover]
      refine collectCatsAux_bound maxBatchSize p rs batches
        (cur ++ parse_categories s) (cnt + (parse_categories s).length)
        (by simp [hcnt]) hp' hb ?_
      left
      simp only [List.length_append]
      omega

/-- C4: with `batch_by = "categories"`, every returned batch has at most
`maxBatchSize` categories, except that a batch may consist of the parsed
categories of one single row whose own category count exceeds the limit. -/
theorem collect_categories_size_bound (maxBatchSize : Nat)
    (rows : List (Option String)) (b : List String)
    (hb : b ∈ collect_categories "categories" maxBatchSize rows) :
    b.length ≤ maxBatchSize ∨
      rows.any (fun r =>
        (r.map parse_categories == some b) && decide (maxBatchSize < b.length)) := by
  have hmem : b ∈ collectCatsAux maxBatchSize rows [] [] 0 := by
    simpa [collect_categories] using hb
  have := collectCatsAux_bound maxBatchSize (fun s => some s ∈ rows) rows [] [] 0
    rfl (fun _ hs => hs) (by simp) (by simp) b hmem
  rcases this with h | ⟨s, hs, hbs, hlen⟩
  · exact Or.inl h
  · right
    rw [List.any_eq_true]
    refine ⟨some s, hs, ?_⟩
    simp only [Option.map_some', Bool.and_eq_true, beq_iff_eq, Option.some.injEq,
      decide_eq_true_eq]
    exact ⟨hbs.symm, hlen⟩

/-- C4 witness: a single row with two categories under limit 1 produces the
over-sized single-row batch. -/
theorem collect_categories_size_bound_witness :
    (["a", "b"] ∈ collect_categories "categories" 1 [some "a;b"]) ∧
    ((["a", "b"] : List String).length ≤ 1 ∨
      [some "a;b"].any (fun r =>
        (r.map parse_categories == some ["a", "b"]) && decide (1 < (["a", "b"] : List String).length))) :=
  ⟨by decide, collect_categories_size_bound 1 [some "a;b"] ["a", "b"] (by decide)⟩

/-! ## C6, C7: process_row -/

/-- C6 counterexample: for a record with no usable mapped field the composed
result is `("No input data", "")`, not the claimed pair of two markers; and a
mapped field holding the empty string counts as data for the code (pandas
`notna("")` is true), so the service is still called once for it. -/
theorem process_row_no_data_not_double_marker :
    extract_elements (process_row "c" [("q", "Q")] [("q", (none : Option String))]
        (fun _ _ => Except.ok (some "x"))).1 ≠ ("No input data", "No input data") ∧
    extract_elements (process_row "c" [("q", "Q")] [("q", (none : Option String))]
        (fun _ _ => Except.ok (some "x"))).1 = ("No input data", "") ∧
    (process_row "c" [("q", "Q")] [("q", some "")]
        (fun _ _ => Except.ok (some "x"))).2.2 = 1 :=
  ⟨by decide, by decide, by decide⟩

/-- C6 (amended): for every record in which no mapped field is present with a
non-NaN value, `process_row` issues no service call and returns the marker
`"No input data"`, and `extract_elements` turns that marker into the pair
`("No input data", "")` — the primary part is the marker, the secondary part
is the empty string. -/
theorem process_row_no_data (ctx : String) (mapping : List (String × String))
    (row : List (String × Option String))
    (resp : String → Nat → Except Unit (Option String))
    (h : rowHasData mapping row = false) :
    process_row ctx mapping row resp = ("No input data", [], 0) ∧
    extract_elements (process_row ctx mapping row resp).1 = ("No input data", "") := by
  have h1 : process_row ctx mapping row resp = ("No input data", [], 0) := by
    simp [process_row, h]
  refine ⟨h1, ?_⟩
  rw [h1]
  decide

/-- C6 witness: a one-column mapping over a NaN cell. -/
theorem process_row_no_data_witness :
    rowHasData [("q", "Q")] [("q", (none : Option String))] = false ∧
    (process_row "c" [("q", "Q")] [("q", (none : Option String))]
        (fun _ _ => Except.ok (some "x")) = ("No input data", [], 0) ∧
     extract_elements (process_row "c" [("q", "Q")] [("q", (none : Option String))]
        (fun _ _ => Except.ok (some "x"))).1 = ("No input data", "")) :=
  ⟨by decide,
    process_row_no_data "c" [("q", "Q")] [("q", none)]
      (fun _ _ => Except.ok (some "x")) (by decide)⟩

/-- C7: for every record with data, `process_row` makes at most 3 service
attempts; the sleep sequence is exactly `2^0, 2^1, …` for the failed
non-final attempts; and when all 3 attempts fail it returns the sentinel
`"Processing error"` (its type — a plain result, not an exception — encodes
that nothing propagates). -/
theorem process_row_retry (ctx : String) (mapping : List (String × String))
    (row : List (String × Option String))
    (resp : String → Nat → Except Unit (Option String))
    (h : rowHasData mapping row = true) :
    (process_row ctx mapping row resp).2.2 ≤ 3 ∧
    (process_row ctx mapping row resp).2.1 =
      (List.range ((process_row ctx mapping row resp).2.2 - 1)).map (fun k => 2 ^ k) ∧
    ((List.range 3).all (fun k => isFail (resp (buildPrompt ctx mapping row) k)) = true →
      (process_row ctx mapping row resp).1 = "Processing error") := by
  have hpr : process_row ctx mapping row resp =
      processAttempts (resp (buildPrompt ctx mapping row)) 0 3 := by
    simp [process_row, h]
  rw [hpr]
  have hall : ((List.range 3).all
      (fun k => isFail (resp (buildPrompt ctx mapping row) k)) = true) ↔
      (isFail (resp (buildPrompt ctx mapping row) 0) ∧
       isFail (resp (buildPrompt ctx mapping row) 1) ∧
       isFail (resp (buildPrompt ctx mapping row) 2)) := by
    simp [List.all_eq_true, List.mem_range]
    constructor
    · intro hh
      exact ⟨hh 0 (by omega), hh 1 (by omega), hh 2 (by omega)⟩
    · rintro ⟨a, b, c⟩ k hk
      interval_cases k <;> assumption
  rcases h0 : resp (buildPrompt ctx mapping row) 0 with e0 | o0
  · rcases h1 : resp (buildPrompt ctx mapping row) 1 with e1 | o1
    · rcases h2 : resp (buildPrompt ctx mapping row) 2 with e2 | o2
      · refine ⟨?_, ?_, ?_⟩ <;>
          simp [processAttempts, h0, h1, h2, hall, isFail, List.range_succ]
      · rcases o2 with _ | t <;>
          refine ⟨?_, ?_, ?_⟩ <;>
            simp [processAttempts, h0, h1, h2, hall, isFail, List.range_succ]
    · rcases o1 with _ | t <;>
        refine ⟨?_, ?_, ?_⟩ <;>
          simp [processAttempts, h0, h1, hall, isFail, List.range_succ]
  · rcases o0 with _ | t <;>
      refine ⟨?_, ?_, ?_⟩ <;>
        simp [processAttempts, h0, hall, isFail, List.range_succ]

/-- C7 witness: an always-failing service on a record with data gives three
calls, sleeps of 1 and 2 units, and the sentinel result. -/
theorem process_row_retry_witness :
    rowHasData [("q", "Q")] [("q", some "v")] = true ∧
    (process_row "" [("q", "Q")] [("q", some "v")]
        (fun _ _ => (Except.error () : Except Unit (Option String)))).2.2 ≤ 3 ∧
    (process_row "" [("q", "Q")] [("q", some "v")]
        (fun _ _ => (Except.error () : Except Unit (Option String)))).1 = "Processing error" :=
  ⟨by decide,
    (process_row_retry "" [("q", "Q")] [("q", some "v")]
      (fun _ _ => Except.error ()) (by decide)).1,
    (process_row_retry "" [("q", "Q")] [("q", some "v")]
      (fun _ _ => Except.error ()) (by decide)).2.2 (by decide)⟩

/-! ## C5: row-boundary alignment of the "rows" batching policy -/

/-- `chunksOf` on the empty list. -/
theorem chunksOf_nil {α : Type} (n : Nat) : chunksOf n ([] : List α) = [] := by
  rw [chunksOf]

/-- Unfolding of `chunksOf` on a non-empty list for a positive chunk size. -/
theorem chunksOf_ne_nil {α : Type} (n : Nat) (hn : 0 < n) (l : List α) (h : l ≠ []) :
    chunksOf n l = List.take n l :: chunksOf n (List.drop n l) := by
  obtain ⟨x, xs, rfl⟩ := List.exists_cons_of_ne_nil h
  rw [chunksOf]
  have hz : ¬ (n = 0) := by omega
  simp [hz]

/-- `chunksFrom` always returns at least one chunk. -/
theorem chunksFrom_ne_nil {α : Type} (n : Nat) :
    ∀ (l : List α) (prev : List α), chunksFrom n prev l ≠ []
  | [], prev => by simp [chunksFrom]
  | r :: rs, prev => by
    rw [chunksFrom]
    by_cases hc : n ≤ prev.length
    · simp [hc]
    · simp only [if_neg hc]
      exact chunksFrom_ne_nil n rs (prev ++ [r])

/-- `dropTrailingEmpty` only inspects the last group. -/
theorem dropTrailingEmpty_cons {g : List String} {gs : List (List String)}
    (h : gs ≠ []) : dropTrailingEmpty (g :: gs) = g :: dropTrailingEmpty gs := by
  obtain ⟨g2, gs', rfl⟩ := List.exists_cons_of_ne_nil h
  rfl

/-- The `"rows"` loop, started with the rows `prev` already in the current
batch, produces exactly the already-closed batches followed by the flattened
parsed chunks of the remaining non-NaN rows (the trailing chunk only when
its category list is non-empty). -/
theorem collectRowsAux_chunksFrom (maxBatchSize : Nat) :
    ∀ (rs : List (Option String)) (batches : List (List String)) (prev : List String),
      collectRowsAux maxBatchSize rs batches
          (prev.flatMap parse_categories) prev.length =
        batches ++ dropTrailingEmpty
          ((chunksFrom maxBatchSize prev (rs.filterMap id)).map
            (fun c => c.flatMap parse_categories))
  | [], batches, prev => by
    show (if prev.flatMap parse_categories = [] then batches
      else batches ++ [prev.flatMap parse_categories]) = _
    rw [show ([] : List (Option String)).filterMap id = [] from rfl]
    rw [show chunksFrom maxBatchSize prev ([] : List String) = [prev] from rfl]
    by_cases hc : prev.flatMap parse_categories = []
    · simp [dropTrailingEmpty, hc]
    · simp [dropTrailingEmpty, hc]
  | none :: rs, batches, prev => by
    show collectRowsAux maxBatchSize rs batches
        (prev.flatMap parse_categories) prev.length = _
    rw [collectRowsAux_chunksFrom maxBatchSize rs batches prev]
    simp [List.filterMap_cons]
  | some s :: rs, batches, prev => by
    show (if maxBatchSize ≤ prev.length then
        collectRowsAux maxBatchSize rs (batches ++ [prev.flatMap parse_categories])
          (parse_categories s) 1
      else
        collectRowsAux maxBatchSize rs batches
          (prev.flatMap parse_categories ++ parse_categories s) (prev.length + 1)) = _
    have hfm : (some s :: rs).filterMap id = s :: rs.filterMap id := by
      simp [List.filterMap_cons]
    rw [hfm]
    by_cases hc : maxBatchSize ≤ prev.length
    · rw [if_pos hc]
      have h1 : parse_categories s = ([s] : List String).flatMap parse_categories := by
        simp
      have h2 : (1 : Nat) = ([s] : List String).length := by simp
      rw [h1, h2, collectRowsAux_chunksFrom maxBatchSize rs
        (batches ++ [prev.flatMap parse_categories]) [s]]
      rw [show chunksFrom maxBatchSize prev (s :: rs.filterMap id) =
        prev :: chunksFrom maxBatchSize [s] (rs.filterMap id) from by
          rw [chunksFrom]; simp [hc]]
      rw [List.map_cons, dropTrailingEmpty_cons (by
        simp only [ne_eq, List.map_eq_nil_iff]
        exact chunksFrom_ne_nil maxBatchSize (rs.filterMap id) [s])]
      simp
    · rw [if_neg hc]
      have h1 : prev.flatMap parse_categories ++ parse_categories s =
          (prev ++ [s]).flatMap parse_categories := by
        simp
      have h2 : prev.length + 1 = (prev ++ [s]).length := by simp
      rw [h1, h2, collectRowsAux_chunksFrom maxBatchSize rs batches (prev ++ [s])]
      rw [show chunksFrom maxBatchSize prev (s :: rs.filterMap id) =
        chunksFrom maxBatchSize (prev ++ [s]) (rs.filterMap id) from by
          rw [chunksFrom]; simp [hc]]

/-- A started chunking with a non-empty, not-over-full first chunk agrees
with plain chunking of the concatenation. -/
theorem chunksFrom_eq_chunksOf {α : Type} (n : Nat) (hn : 0 < n) :
    ∀ (l : List α) (prev : List α), 0 < prev.length → prev.length ≤ n →
      chunksFrom n prev l = chunksOf n (prev ++ l)
  | [], prev, h1, h2 => by
    have hne : prev ≠ [] := by
      intro e
      rw [e] at h1
      simp at h1
    rw [List.append_nil, chunksOf_ne_nil n hn prev hne, List.take_of_length_le h2,
      List.drop_eq_nil_of_le h2, chunksOf_nil]
    rfl
  | r :: rs, prev, h1, h2 => by
    by_cases hc : n ≤ prev.length
    · have hlen : prev.length = n := le_antisymm h2 hc
      rw [show chunksFrom n prev (r :: rs) = prev :: chunksFrom n [r] rs from by
        rw [chunksFrom]; simp [hc]]
      rw [chunksFrom_eq_chunksOf n hn rs [r] (by simp) (by simpa using hn)]
      have hr : chunksOf n (prev ++ r :: rs) = prev :: chunksOf n (r :: rs) := by
        rw [chunksOf_ne_nil n hn (prev ++ r :: rs) (by simp), ← hlen,
          List.take_left, List.drop_left]
      rw [hr]
      simp
    · push_neg at hc
      rw [show chunksFrom n prev (r :: rs) = chunksFrom n (prev ++ [r]) rs from by
        rw [chunksFrom]; simp [Nat.not_le.mpr hc]]
      rw [chunksFrom_eq_chunksOf n hn rs (prev ++ [r]) (by simp)
        (by simp only [List.length_append, List.length_singleton]; omega)]
      simp

/-- Every chunk except the last has exactly `n` elements. -/
theorem chunksOf_full {α : Type} (n : Nat) (hn : 0 < n) :
    (l : List α) → (i : Nat) → (c : List α) →
      (chunksOf n l)[i]? = some c → i + 1 < (chunksOf n l).length → c.length = n
  | [], i, c, h1, h2 => by
    rw [chunksOf_nil] at h2
    simp at h2
  | x :: xs, i, c, h1, h2 => by
    rw [chunksOf_ne_nil n hn (x :: xs) (by simp)] at h1 h2
    match i with
    | 0 =>
      rw [List.getElem?_cons_zero] at h1
      simp only [List.length_cons] at h2
      have hdne : List.drop n (x :: xs) ≠ [] := by
        intro hnil
        rw [hnil, chunksOf_nil] at h2
        simp at h2
      have hlen : n ≤ (x :: xs).length := by
        by_contra hlt
        push_neg at hlt
        exact hdne (List.drop_eq_nil_of_le (by omega))
      have hc : List.take n (x :: xs) = c := by
        injection h1
      rw [← hc, List.length_take]
      omega
    | j + 1 =>
      rw [List.getElem?_cons_succ] at h1
      simp only [List.length_cons] at h2
      exact chunksOf_full n hn (List.drop n (x :: xs)) j c h1 (by omega)
termination_by l _ _ _ _ => l.length
decreasing_by
  simp only [List.length_drop, List.length_cons]
  omega

/-- C5: with `batch_by = "rows"` and a positive `maxBatchSize`, the output is
exactly the non-NaN rows grouped into consecutive chunks of `maxBatchSize`
rows, each chunk flattened to its parsed categories, with only a trailing
all-empty chunk suppressed — so batch boundaries align to row boundaries and
every batch but the last covers exactly `maxBatchSize` non-NaN rows, while a
batch's category count may exceed `maxBatchSize` (third conjunct: the spec's
own example, whose first batch holds 3 > 2 categories). -/
theorem collect_rows_chunk_aligned (maxBatchSize : Nat) (h : 0 < maxBatchSize)
    (rows : List (Option String)) (l : List String) (i : Nat) (c : List String) :
    collect_categories "rows" maxBatchSize rows =
      dropTrailingEmpty ((chunksOf maxBatchSize (rows.filterMap id)).map
        (fun ch => ch.flatMap parse_categories)) ∧
    ((chunksOf maxBatchSize l)[i]? = some c →
      i + 1 < (chunksOf maxBatchSize l).length → c.length = maxBatchSize) ∧
    collect_categories "rows" 2 [some "a;b", some "c", some "d;e;f"] =
      [["a", "b", "c"], ["d", "e", "f"]] := by
  refine ⟨?_, fun h1 h2 => chunksOf_full maxBatchSize h l i c h1 h2, by decide⟩
  show collectRowsAux maxBatchSize rows [] [] 0 = _
  have hstart := collectRowsAux_chunksFrom maxBatchSize rows [] []
  simp only [List.flatMap_nil, List.length_nil, List.nil_append] at hstart
  rw [hstart]
  cases hfm : rows.filterMap id with
  | nil =>
    rw [show chunksFrom maxBatchSize ([] : List String) ([] : List String) = [[]] from rfl,
      chunksOf_nil]
    rfl
  | cons r rest =>
    rw [show chunksFrom maxBatchSize ([] : List String) (r :: rest) =
      chunksFrom maxBatchSize [r] rest from by
        rw [chunksFrom]; simp [Nat.not_le.mpr h]]
    rw [chunksFrom_eq_chunksOf maxBatchSize h rest [r] (by simp) (by simpa using h)]
    simp

/-- C5 witness. -/
theorem collect_rows_chunk_aligned_witness :
    0 < 2 ∧
    collect_categories "rows" 2 [some "a;b", some "c", some "d;e;f"] =
      dropTrailingEmpty ((chunksOf 2 (([some "a;b", some "c", some "d;e;f"] :
        List (Option String)).filterMap id)).map
        (fun ch => ch.flatMap parse_categories)) :=
  ⟨by decide,
    (collect_rows_chunk_aligned 2 (by decide)
      [some "a;b", some "c", some "d;e;f"] [] 0 []).1⟩

/-! ## C9: extract_elements against the spec description -/

/-- Round trip from character lists to strings. -/
theorem toList_asString (l : List Char) : (List.asString l).toList = l := rfl

/-- An element that fails the predicate survives `dropWhile`. -/
theorem mem_dropWhile_of_not {α : Type} {p : α → Bool} :
    ∀ {l : List α} {c : α}, c ∈ l → p c = false → c ∈ List.dropWhile p l
  | a :: l, c, hc, hpc => by
    rw [List.dropWhile_cons]
    by_cases hpa : p a = true
    · rw [if_pos hpa]
      rcases List.mem_cons.mp hc with rfl | hmem
      · rw [hpa] at hpc
        cases hpc
      · exact mem_dropWhile_of_not hmem hpc
    · rw [if_neg hpa]
      exact hc

/-- An element that fails the predicate survives `rdropWhile`. -/
theorem mem_rdropWhile_of_not {α : Type} {p : α → Bool} {l : List α} {c : α}
    (hc : c ∈ l) (hpc : p c = false) : c ∈ List.rdropWhile p l := by
  rw [List.rdropWhile, List.mem_reverse]
  exact mem_dropWhile_of_not (List.mem_reverse.mpr hc) hpc

/-- Dropping with a weaker predicate first does not change a `dropWhile`. -/
theorem dropWhile_dropWhile_of_imp {α : Type} {p q : α → Bool}
    (h : ∀ c, p c = true → q c = true) :
    ∀ l : List α, List.dropWhile q (List.dropWhile p l) = List.dropWhile q l
  | [] => rfl
  | a :: l => by
    rw [List.dropWhile_cons]
    by_cases hpa : p a = true
    · rw [if_pos hpa, dropWhile_dropWhile_of_imp h l, List.dropWhile_cons,
        if_pos (h a hpa)]
    · rw [if_neg hpa]

/-- `rdropWhile` passes over a prefix that ends before a surviving element. -/
theorem rdropWhile_append_cons {α : Type} {p : α → Bool} {x : α}
    (hx : p x = false) (a b : List α) :
    List.rdropWhile p (a ++ x :: b) = a ++ x :: List.rdropWhile p b := by
  rw [List.rdropWhile, List.rdropWhile, List.reverse_append, List.reverse_cons,
    List.append_assoc, List.dropWhile_append]
  by_cases hb : (List.dropWhile p b.reverse).isEmpty
  · rw [if_pos hb, List.singleton_append, List.dropWhile_cons, if_neg (by simp [hx])]
    have h0 : List.dropWhile p b.reverse = [] := by
      simpa [List.isEmpty_iff] using hb
    rw [h0]
    simp
  · rw [if_neg hb]
    simp

/-- Front and back whitespace removal commute. -/
theorem dropWhile_rdropWhile_comm {α : Type} (p : α → Bool) (l : List α) :
    List.dropWhile p (List.rdropWhile p l) = List.rdropWhile p (List.dropWhile p l) := by
  induction l using List.reverseRecOn with
  | nil => simp
  | append_singleton xs x ih =>
    by_cases hx : p x = true
    · rw [List.rdropWhile_concat_pos _ _ _ hx, ih, List.dropWhile_append]
      by_cases hxs : (List.dropWhile p xs).isEmpty
      · have h0 : List.dropWhile p xs = [] := by
          simpa [List.isEmpty_iff] using hxs
        rw [if_pos hxs, h0]
        simp [List.dropWhile_cons, hx]
      · rw [if_neg hxs, List.rdropWhile_concat_pos _ _ _ hx]
    · rw [List.rdropWhile_concat_neg _ _ _ hx, List.dropWhile_append]
      by_cases hxs : (List.dropWhile p xs).isEmpty
      · rw [if_pos hxs]
        have h1 : List.dropWhile p [x] = [x] := by
          simp [List.dropWhile_cons, hx]
        rw [h1, List.rdropWhile_singleton, if_neg (by simp [hx])]
      · rw [if_neg hxs, List.rdropWhile_concat_neg _ _ _ hx]

/-- `pyStrip` in terms of front and back whitespace removal. -/
theorem pyStrip_eq (cs : List Char) :
    pyStrip cs = List.rdropWhile isPySpace (List.dropWhile isPySpace cs) := rfl

/-- Python `strip` is idempotent. -/
theorem pyStrip_idem (l : List Char) : pyStrip (pyStrip l) = pyStrip l := by
  rw [pyStrip_eq l, pyStrip_eq, dropWhile_rdropWhile_comm,
    List.dropWhile_idempotent, List.rdropWhile_idempotent]

/-- `pyStrip` keeps the ends stripped after a back strip of its input. -/
theorem pyStrip_rdropWhile (b : List Char) :
    pyStrip (List.rdropWhile isPySpace b) = pyStrip b := by
  rw [pyStrip_eq, pyStrip_eq, dropWhile_rdropWhile_comm,
    List.rdropWhile_idempotent]

/-- Membership transfers out of `pyStrip`. -/
theorem mem_of_mem_pyStrip {c : Char} {l : List Char} (h : c ∈ pyStrip l) : c ∈ l := by
  rw [pyStrip_eq] at h
  exact (List.dropWhile_sublist isPySpace).subset
    ((List.rdropWhile_prefix isPySpace _).sublist.subset h)

/-- First-occurrence decomposition at a colon. -/
theorem exists_first_colon :
    ∀ {l : List Char}, ':' ∈ l → ∃ a b, l = a ++ ':' :: b ∧ ∀ c ∈ a, c ≠ ':'
  | c :: l, hmem => by
    by_cases hc : c = ':'
    · exact ⟨[], l, by rw [hc]; rfl, by simp⟩
    · have hl : ':' ∈ l := by
        rcases List.mem_cons.mp hmem with h | h
        · exact absurd h.symm hc
        · exact h
      obtain ⟨a, b, rfl, ha⟩ := exists_first_colon hl
      refine ⟨c :: a, b, rfl, ?_⟩
      intro d hd
      rcases List.mem_cons.mp hd with rfl | hd
      · exact hc
      · exact ha d hd

/-- A leading whitespace strip does not change the colon split, when a colon
is present. -/
theorem splitOnceColon_dropWhile (l : List Char) (h : ':' ∈ l) :
    splitOnceColon (List.dropWhile isPySpace l) = splitOnceColon l := by
  have hmem : ':' ∈ List.dropWhile isPySpace l :=
    mem_dropWhile_of_not h (by simp [isPySpace])
  rw [splitOnceColon, splitOnceColon, if_pos hmem, if_pos h,
    dropWhile_dropWhile_of_imp (by
      intro c hc
      simp only [decide_eq_true_eq]
      intro hcolon
      rw [hcolon] at hc
      simp [isPySpace] at hc) l]

/-- A trailing whitespace strip commutes with the colon split and the final
strip, when a colon is present. -/
theorem pyStrip_splitOnceColon_rdropWhile (l : List Char) (h : ':' ∈ l) :
    pyStrip (splitOnceColon (List.rdropWhile isPySpace l)) =
      pyStrip (splitOnceColon l) := by
  obtain ⟨a, b, rfl, ha⟩ := exists_first_colon h
  have hqa : ∀ c ∈ a, (fun c => decide (c ≠ ':')) c = true := by
    intro c hc
    simp [ha c hc]
  have hsplit : ∀ X : List Char, splitOnceColon (a ++ ':' :: X) = X := by
    intro X
    rw [splitOnceColon, if_pos (by simp), List.dropWhile_append_of_pos hqa,
      List.dropWhile_cons, if_neg (by simp)]
    rfl
  rw [rdropWhile_append_cons (by decide) a b, hsplit, hsplit, pyStrip_rdropWhile]

/-- Stripping before the colon split does not change the final result. -/
theorem pyStrip_splitOnceColon_pyStrip (p : List Char) :
    pyStrip (splitOnceColon (pyStrip p)) = pyStrip (splitOnceColon p) := by
  by_cases h : ':' ∈ p
  · rw [pyStrip_eq p, pyStrip_splitOnceColon_rdropWhile _
      (mem_dropWhile_of_not h (by simp [isPySpace])),
      splitOnceColon_dropWhile p h]
  · have h2 : ':' ∉ pyStrip p := fun hc => h (mem_of_mem_pyStrip hc)
    rw [splitOnceColon, if_neg h2, splitOnceColon, if_neg h, pyStrip_idem]

/-- A Python split never returns an empty list of groups. -/
theorem splitDashes_ne_nil : ∀ cs : List Char, splitDashes cs ≠ [] := by
  intro cs
  induction cs using splitDashes.induct with
  | case1 => simp [splitDashes]
  | case2 rest ih => simp [splitDashes]
  | case3 c rest h hnil ih =>
    rw [splitDashes]
    · rw [hnil]
      simp
    · exact h
  | case4 c rest h g gs hcons ih =>
    rw [splitDashes]
    · rw [hcons]
      simp
    · exact h

/-- Structure of a `---` split: the first group is the text before the first
separator, the remaining groups are the split of the text after it. -/
theorem splitDashes_eq : ∀ cs : List Char,
    splitDashes cs = takeUntilDashes cs :: dashTail cs := by
  intro cs
  induction cs using splitDashes.induct with
  | case1 => rfl
  | case2 rest ih => rfl
  | case3 c rest h hnil ih =>
    exact absurd hnil (splitDashes_ne_nil rest)
  | case4 c rest h g gs hcons ih =>
    rw [hcons] at ih
    injection ih with h1 h2
    have e1 : splitDashes (c :: rest) = (c :: g) :: gs := by
      rw [splitDashes]
      · rw [hcons]
      · exact h
    have e2 : takeUntilDashes (c :: rest) = c :: takeUntilDashes rest := by
      rw [takeUntilDashes]
      exact h
    have e3 : dashTail (c :: rest) = dashTail rest := by
      unfold dashTail
      rw [afterDashes]
      exact h
    rw [e1, e2, e3, h1, h2]

/-- Per-part processing of `extract_elements`: the pre-strip of the part
before the colon split does not affect the stripped final result. -/
theorem strip_colon_strip (p : List Char) :
    pyStripStr (splitOnceColonStr (pyStripStr (List.asString p))) =
      (pyStrip (splitOnceColon p)).asString := by
  show (pyStrip (splitOnceColon (pyStrip p))).asString = _
  rw [pyStrip_splitOnceColon_pyStrip]

/-- C9 counterexample: with two separators the secondary part is the text
between the first and second `---`, not the whole text after the first. -/
theorem extract_elements_multiple_separators :
    extract_elements "a---b---c" = ("a", "b") ∧
    (("a" : String), ("b" : String)) ≠ (("a" : String), ("b---c" : String)) :=
  ⟨by decide, by decide⟩

/-- C9 (amended): `extract_elements` always returns exactly two string parts
without raising: primary is the text before the first `---` and secondary the
text between the first and second `---` (empty when no separator occurs;
anything after a second separator is discarded); in each part everything up
to and including the first colon is dropped, later colons are kept, and the
remainder is trimmed — the code's extra pre-trim of each part is immaterial. -/
theorem extract_elements_eq_specExtract (s : String) :
    extract_elements s = specExtract s := by
  simp only [extract_elements, specExtract]
  rw [splitDashes_eq s.toList]
  cases had : afterDashes s.toList with
  | none =>
    have ht : dashTail s.toList = [] := by
      unfold dashTail
      rw [had]
    rw [ht]
    simp only [List.map_cons, List.map_nil]
    refine Prod.ext ?_ ?_
    · exact strip_colon_strip (takeUntilDashes s.toList)
    · show pyStripStr (splitOnceColonStr "") = (pyStrip (splitOnceColon [])).asString
      decide
  | some r =>
    have ht : dashTail s.toList = splitDashes r := by
      unfold dashTail
      rw [had]
    rw [ht, splitDashes_eq r]
    simp only [List.map_cons]
    refine Prod.ext ?_ ?_
    · exact strip_colon_strip (takeUntilDashes s.toList)
    · exact strip_colon_strip (takeUntilDashes r)

/-! ## C8: idempotence of clean_text -/

/-- `clean_text` is the string lift of `cleanChars`. -/
theorem clean_text_eq (s : String) : clean_text s = (cleanChars s.toList).asString := rfl

/-- A matched head pattern is contained in the list. -/
theorem begins_subset : ∀ {ps cs : List Char}, begins ps cs = true → ∀ a ∈ ps, a ∈ cs
  | [], _, _, a, ha => absurd ha (List.not_mem_nil a)
  | p :: ps, c :: cs, h, a, ha => by
    rw [begins, Bool.and_eq_true] at h
    rcases List.mem_cons.mp ha with rfl | ha
    · rw [List.mem_cons]
      left
      exact decide_eq_true_eq.mp h.1
    · exact List.mem_cons_of_mem c (begins_subset h.2 a ha)

/-- Every alternative of the ContentBlock pattern contains a single quote,
so quote-free text never matches. -/
theorem cbMatchLen_none_of_no_apos {cs : List Char} (h : ∀ c ∈ cs, c ≠ apos) :
    cbMatchLen cs = none := by
  have hnot : ∀ ps : List Char, apos ∈ ps → begins ps cs = false := by
    intro ps hmem
    by_contra hb
    rw [Bool.not_eq_false] at hb
    exact h apos (begins_subset hb apos hmem) rfl
  rw [cbMatchLen, hnot cbPatA1 (by decide), hnot cbPatA2 (by decide),
    hnot cbPatB1 (by decide), hnot cbPatB2 (by decide), hnot cbPatB3 (by decide),
    hnot cbPatB4 (by decide)]
  rfl

/-- The ContentBlock scan is the identity on quote-free text. -/
theorem stripCBF_of_no_apos :
    ∀ (n : Nat) (cs : List Char), (∀ c ∈ cs, c ≠ apos) → stripCBF n cs = cs
  | 0, cs, _ => rfl
  | _ + 1, [], _ => rfl
  | n + 1, c :: cs, h => by
    rw [stripCBF, cbMatchLen_none_of_no_apos h,
      stripCBF_of_no_apos n cs (fun d hd => h d (List.mem_cons_of_mem c hd))]

/-- The ContentBlock removal is the identity on quote-free text. -/
theorem stripCB_of_no_apos {cs : List Char} (h : ∀ c ∈ cs, c ≠ apos) :
    stripCB cs = cs :=
  stripCBF_of_no_apos cs.length cs h

/-- The escaped-newline replacement is the identity on backslash-free text. -/
theorem replaceEscNL_of_no_bs :
    ∀ {cs : List Char}, (∀ c ∈ cs, c ≠ '\\') → replaceEscNL cs = cs
  | [], _ => rfl
  | c :: cs, h => by
    have hc : c ≠ '\\' := h c (List.mem_cons_self c cs)
    have ih := replaceEscNL_of_no_bs (fun d hd => h d (List.mem_cons_of_mem c hd))
    have hstep : replaceEscNL (c :: cs) = c :: replaceEscNL cs := by
      match cs with
      | [] =>
        rw [replaceEscNL]
        intro _ h1 _
        exact hc h1
      | c2 :: cs' =>
        rw [replaceEscNL]
        intro _ h1 _
        exact hc h1
    rw [hstep, ih]

/-- Characters of the newline replacement come from the input or are `\n`. -/
theorem mem_replaceEscNL {c : Char} : ∀ {l : List Char},
    c ∈ replaceEscNL l → c ∈ l ∨ c = '\n' := by
  intro l
  induction l using replaceEscNL.induct with
  | case1 rest ih =>
    intro h
    rw [show replaceEscNL ('\\' :: 'n' :: rest) = '\n' :: replaceEscNL rest from rfl]
      at h
    rcases List.mem_cons.mp h with rfl | h
    · exact Or.inr rfl
    · rcases ih h with h | h
      · exact Or.inl (List.mem_cons_of_mem _ (List.mem_cons_of_mem _ h))
      · exact Or.inr h
  | case2 c0 rest hne ih =>
    intro h
    have hstep : replaceEscNL (c0 :: rest) = c0 :: replaceEscNL rest := by
      rw [replaceEscNL]
      exact hne
    rw [hstep] at h
    rcases List.mem_cons.mp h with rfl | h
    · exact Or.inl (List.mem_cons_self _ _)
    · rcases ih h with h | h
      · exact Or.inl (List.mem_cons_of_mem _ h)
      · exact Or.inr h
  | case3 =>
    intro h
    exact absurd h (List.not_mem_nil c)

/-- Characters of the whitespace collapse come from the input or are spaces. -/
theorem mem_collapseGo {c : Char} :
    ∀ (b : Bool) (l : List Char), c ∈ collapseGo b l → c ∈ l ∨ c = ' '
  | _, [], h => absurd h (List.not_mem_nil c)
  | b, c0 :: cs, h => by
    rw [collapseGo] at h
    by_cases hws : isPySpace c0 = true
    · rw [if_pos hws] at h
      have hmem : c ∈ collapseGo true cs ∨ c = ' ' := by
        by_cases hb : b
        · rw [if_pos hb] at h
          exact Or.inl h
        · rw [if_neg hb] at h
          rcases List.mem_cons.mp h with rfl | h
          · exact Or.inr rfl
          · exact Or.inl h
      rcases hmem with h | h
      · rcases mem_collapseGo true cs h with h | h
        · exact Or.inl (List.mem_cons_of_mem c0 h)
        · exact Or.inr h
      · exact Or.inr h
    · rw [if_neg hws] at h
      rcases List.mem_cons.mp h with rfl | h
      · exact Or.inl (List.mem_cons_self c cs)
      · rcases mem_collapseGo false cs h with h | h
        · exact Or.inl (List.mem_cons_of_mem c0 h)
        · exact Or.inr h

/-- After the collapse has just emitted a space, the next emitted character
is not whitespace. -/
theorem collapseGo_head_not_ws :
    ∀ (l : List Char) (h : Char), (collapseGo true l).head? = some h →
      isPySpace h = false
  | [], h, hh => by
    rw [collapseGo] at hh
    cases hh
  | c :: cs, h, hh => by
    rw [collapseGo] at hh
    by_cases hws : isPySpace c = true
    · rw [if_pos hws, if_pos rfl] at hh
      exact collapseGo_head_not_ws cs h hh
    · rw [if_neg hws] at hh
      rw [List.head?_cons] at hh
      injection hh with hh
      rw [← hh]
      exact Bool.not_eq_true _ |>.mp hws

/-- The collapse output is whitespace-normal: all whitespace is a single
space and no two spaces are adjacent. -/
theorem collapseGo_wsNorm :
    ∀ (l : List Char) (b : Bool),
      wsSingle (collapseGo b l) ∧ noDbl (collapseGo b l)
  | [], b => by
    rw [collapseGo]
    exact ⟨fun c hc => absurd hc (List.not_mem_nil c), List.chain'_nil⟩
  | c :: cs, b => by
    rw [collapseGo]
    by_cases hws : isPySpace c = true
    · rw [if_pos hws]
      have ih := collapseGo_wsNorm cs true
      by_cases hb : b
      · rw [if_pos hb]
        exact ih
      · rw [if_neg hb]
        refine ⟨?_, ?_⟩
        · intro d hd hws2
          rcases List.mem_cons.mp hd with rfl | hd
          · rfl
          · exact ih.1 d hd hws2
        · rw [noDbl, List.chain'_cons']
          refine ⟨?_, ih.2⟩
          intro y hy _
          have := collapseGo_head_not_ws cs y hy
          intro hcontra
          rw [hcontra] at this
          simp [isPySpace] at this
    · rw [if_neg hws]
      have ih := collapseGo_wsNorm cs false
      refine ⟨?_, ?_⟩
      · intro d hd hws2
        rcases List.mem_cons.mp hd with rfl | hd
        · exact absurd hws2 hws
        · exact ih.1 d hd hws2
      · rw [noDbl, List.chain'_cons']
        refine ⟨?_, ih.2⟩
        intro y hy hc
        rw [hc] at hws
        simp [isPySpace] at hws

/-- Whitespace-normal text is a fixed point of the collapse (in state `true`
additionally when it does not start with whitespace). -/
theorem collapseGo_fix :
    ∀ l : List Char, wsSingle l → noDbl l →
      collapseGo false l = l ∧
      ((∀ h ∈ l.head?, isPySpace h = false) → collapseGo true l = l)
  | [], _, _ => ⟨rfl, fun _ => rfl⟩
  | c :: cs, hws, hdbl => by
    have hws' : wsSingle cs := fun d hd => hws d (List.mem_cons_of_mem c hd)
    have hdbl' : noDbl cs := List.Chain'.tail hdbl
    have ih := collapseGo_fix cs hws' hdbl'
    constructor
    · rw [collapseGo]
      by_cases hc : isPySpace c = true
      · rw [if_pos hc]
        have hceq : c = ' ' := hws c (List.mem_cons_self c cs) hc
        have hhead : ∀ h ∈ cs.head?, isPySpace h = false := by
          intro h hh
          have hmem : h ∈ cs := by
            cases cs with
            | nil => simp at hh
            | cons a l =>
              rw [List.head?_cons] at hh
              rw [show h = a from by injection hh with hh; exact hh.symm]
              exact List.mem_cons_self a l
          have hne : h ≠ ' ' := by
            have := (List.chain'_cons'.mp hdbl).1 h hh
            exact this hceq
          by_contra hcontra
          rw [Bool.not_eq_false] at hcontra
          exact hne (hws' h hmem hcontra)
        rw [ih.2 hhead]
        simp [hceq]
      · rw [if_neg hc, ih.1]
    · intro hhead
      rw [collapseGo]
      by_cases hc : isPySpace c = true
      · exfalso
        have := hhead c (by rw [List.head?_cons]; rfl)
        rw [this] at hc
        cases hc
      · rw [if_neg hc, ih.1]

/-- `noDbl` is preserved by a front `dropWhile`. -/
theorem noDbl_dropWhile (p : Char → Bool) :
    ∀ {l : List Char}, noDbl l → noDbl (List.dropWhile p l)
  | [], h => h
  | c :: cs, h => by
    rw [List.dropWhile_cons]
    by_cases hc : p c = true
    · rw [if_pos hc]
      exact noDbl_dropWhile p (List.Chain'.tail h)
    · rw [if_neg hc]
      exact h

/-- `noDbl` is symmetric under reversal. -/
theorem noDbl_reverse {l : List Char} (h : noDbl l) : noDbl l.reverse := by
  rw [noDbl, List.chain'_reverse]
  exact h.imp (fun a b hab hb ha => (hab ha) hb)

/-- `noDbl` is preserved by a back `rdropWhile`. -/
theorem noDbl_rdropWhile (p : Char → Bool) {l : List Char} (h : noDbl l) :
    noDbl (List.rdropWhile p l) := by
  rw [List.rdropWhile]
  exact noDbl_reverse (noDbl_dropWhile p (noDbl_reverse h))

/-- `noDbl` is preserved by a strip. -/
theorem noDbl_pyStrip {l : List Char} (h : noDbl l) : noDbl (pyStrip l) := by
  rw [pyStrip_eq]
  exact noDbl_rdropWhile _ (noDbl_dropWhile _ h)

/-- On quote-free text the cleaning pipeline is idempotent. -/
theorem cleanChars_idem (cs : List Char) (hq : ∀ c ∈ cs, c ≠ apos)
    (hq2 : ∀ c ∈ cs, c ≠ '"') : cleanChars (cleanChars cs) = cleanChars cs := by
  have h1 : stripCB cs = cs := stripCB_of_no_apos hq
  have hz3q : ∀ c ∈ collapseWS ((replaceEscNL cs).filter (fun c => c ≠ '\\')),
      c ≠ apos := by
    intro c hc
    rcases mem_collapseGo false _ hc with h | h
    · rcases mem_replaceEscNL (List.mem_filter.mp h).1 with h' | h'
      · exact hq c h'
      · rw [h']
        decide
    · rw [h]
      decide
  have hz3q2 : ∀ c ∈ collapseWS ((replaceEscNL cs).filter (fun c => c ≠ '\\')),
      c ≠ '"' := by
    intro c hc
    rcases mem_collapseGo false _ hc with h | h
    · rcases mem_replaceEscNL (List.mem_filter.mp h).1 with h' | h'
      · exact hq2 c h'
      · rw [h']
        decide
    · rw [h]
      decide
  have h2 : (collapseWS ((replaceEscNL cs).filter (fun c => c ≠ '\\'))).filter
      (fun c => c ≠ '"') =
      collapseWS ((replaceEscNL cs).filter (fun c => c ≠ '\\')) := by
    refine List.filter_eq_self.mpr ?_
    intro a ha
    simp only [decide_eq_true_eq]
    exact hz3q2 a ha
  have h3 : (collapseWS ((replaceEscNL cs).filter (fun c => c ≠ '\\'))).filter
      (fun c => c ≠ apos) =
      collapseWS ((replaceEscNL cs).filter (fun c => c ≠ '\\')) := by
    refine List.filter_eq_self.mpr ?_
    intro a ha
    simp only [decide_eq_true_eq]
    exact hz3q a ha
  have hfirst : cleanChars cs =
      pyStrip (collapseWS ((replaceEscNL cs).filter (fun c => c ≠ '\\'))) := by
    rw [cleanChars, h1, h2, h3]
  have hyq : ∀ c ∈ pyStrip (collapseWS ((replaceEscNL cs).filter
      (fun c => c ≠ '\\'))), c ≠ apos :=
    fun c hc => hz3q c (mem_of_mem_pyStrip hc)
  have hyq2 : ∀ c ∈ pyStrip (collapseWS ((replaceEscNL cs).filter
      (fun c => c ≠ '\\'))), c ≠ '"' :=
    fun c hc => hz3q2 c (mem_of_mem_pyStrip hc)
  have hybs : ∀ c ∈ pyStrip (collapseWS ((replaceEscNL cs).filter
      (fun c => c ≠ '\\'))), c ≠ '\\' := by
    intro c hc
    rcases mem_collapseGo false _ (mem_of_mem_pyStrip hc) with h | h
    · exact decide_eq_true_eq.mp (List.mem_filter.mp h).2
    · rw [h]
      decide
  have hnorm : wsSingle (collapseWS ((replaceEscNL cs).filter
      (fun c => c ≠ '\\'))) ∧ noDbl (collapseWS ((replaceEscNL cs).filter
      (fun c => c ≠ '\\'))) :=
    collapseGo_wsNorm ((replaceEscNL cs).filter (fun c => c ≠ '\\')) false
  have hynorm : wsSingle (pyStrip (collapseWS ((replaceEscNL cs).filter
      (fun c => c ≠ '\\')))) ∧ noDbl (pyStrip (collapseWS ((replaceEscNL cs).filter
      (fun c => c ≠ '\\')))) :=
    ⟨fun c hc => hnorm.1 c (mem_of_mem_pyStrip hc), noDbl_pyStrip hnorm.2⟩
  have s3 : (pyStrip (collapseWS ((replaceEscNL cs).filter
      (fun c => c ≠ '\\')))).filter (fun c => c ≠ '\\') =
      pyStrip (collapseWS ((replaceEscNL cs).filter (fun c => c ≠ '\\'))) := by
    refine List.filter_eq_self.mpr ?_
    intro a ha
    simp only [decide_eq_true_eq]
    exact hybs a ha
  have s4 : collapseWS (pyStrip (collapseWS ((replaceEscNL cs).filter
      (fun c => c ≠ '\\')))) =
      pyStrip (collapseWS ((replaceEscNL cs).filter (fun c => c ≠ '\\'))) :=
    (collapseGo_fix _ hynorm.1 hynorm.2).1
  have s5 : (pyStrip (collapseWS ((replaceEscNL cs).filter
      (fun c => c ≠ '\\')))).filter (fun c => c ≠ '"') =
      pyStrip (collapseWS ((replaceEscNL cs).filter (fun c => c ≠ '\\'))) := by
    refine List.filter_eq_self.mpr ?_
    intro a ha
    simp only [decide_eq_true_eq]
    exact hyq2 a ha
  have s6 : (pyStrip (collapseWS ((replaceEscNL cs).filter
      (fun c => c ≠ '\\')))).filter (fun c => c ≠ apos) =
      pyStrip (collapseWS ((replaceEscNL cs).filter (fun c => c ≠ '\\'))) := by
    refine List.filter_eq_self.mpr ?_
    intro a ha
    simp only [decide_eq_true_eq]
    exact hyq a ha
  rw [hfirst, cleanChars,
    stripCB_of_no_apos hyq,
    replaceEscNL_of_no_bs hybs,
    s3, s4, s5, s6, pyStrip_idem]

/-- C8 counterexample: `clean_text` is not idempotent.  On the input
`a_SQ_SQ_b` (SQ a single quote, underscores spaces) the first pass removes
the quotes after whitespace collapsing, leaving a triple space; the second
pass collapses it further. -/
theorem clean_text_not_idempotent :
    clean_text (clean_text (List.asString ['a', ' ', apos, ' ', apos, ' ', 'b'])) ≠
      clean_text (List.asString ['a', ' ', apos, ' ', apos, ' ', 'b']) ∧
    clean_text (List.asString ['a', ' ', apos, ' ', apos, ' ', 'b']) = "a   b" ∧
    clean_text "a   b" = "a b" :=
  ⟨by decide, by decide, by decide⟩

/-- C8 (amended): `clean_text` is idempotent on every string containing no
single- and no double-quote character; on strings with quotes adjacent to
whitespace a second application can differ, because the quote removal runs
after whitespace collapsing and can create new multi-space runs. -/
theorem clean_text_idem_of_noQuotes (s : String) (h : noQuotes s = true) :
    clean_text (clean_text s) = clean_text s := by
  have hq : ∀ c ∈ s.toList, c ≠ apos := by
    intro c hc
    have := List.all_eq_true.mp h c hc
    rw [Bool.and_eq_true] at this
    exact decide_eq_true_eq.mp this.2
  have hq2 : ∀ c ∈ s.toList, c ≠ '"' := by
    intro c hc
    have := List.all_eq_true.mp h c hc
    rw [Bool.and_eq_true] at this
    exact decide_eq_true_eq.mp this.1
  rw [clean_text_eq s, clean_text_eq, toList_asString, cleanChars_idem s.toList hq hq2]

/-- C8 witness: a quote-free string with internal double spaces. -/
theorem clean_text_idem_witness :
    noQuotes "a  b c" = true ∧
    clean_text (clean_text "a  b c") = clean_text "a  b c" :=
  ⟨by decide, clean_text_idem_of_noQuotes "a  b c" (by decide)⟩
